import Mathlib

/-! gDrive-app: path resolution and duplicate grouping.

A shallow embedding of the three core functions of `mian.go`
(`GetFilePaths`, `getFullPath`, `FindDuplicates`) together with the
properties of them that the specification talks about.

* A `drive.File` is a record; only the fields the program reads are kept.
* A Go `map[string]V` is a function `String → Option V`; a missing key is `none`.
* The remote service `srv.Files.Get(id)...Do()` is a function
  `String → Option File`; `none` is the `err != nil` branch.
* `getFullPath` recurses without a bound in the source, so the embedding is
  indexed by a recursion-depth budget; running out of budget is the outcome
  `unfinished`.  `log.Fatalf` ends the process and is the outcome `fatal`.
* Every remote lookup is appended to an explicit log of folder ids.
-/

namespace GDrive

/-- The fields of `drive.File` that the program reads. Folders are files too. -/
structure File where
  Id : String
  Name : String
  Md5Checksum : String
  Size : Int
  Parents : List String
deriving DecidableEq

/-- A Go `map[string]V`. -/
abbrev GoMap (V : Type) := String → Option V

/-- The result of `make(map[string]V)`. -/
def GoMap.empty {V : Type} : GoMap V := fun _ => none

/-- The assignment `m[k] = v`. -/
def GoMap.set {V : Type} (m : GoMap V) (k : String) (v : V) : GoMap V :=
  fun k' => if k' = k then some v else m k'

/-- The read `m[k]` of a map of slices: a missing key reads as the nil slice. -/
def GoMap.read {V : Type} (m : GoMap (List V)) (k : String) : List V :=
  (m k).getD []

/-- The remote folder lookup `srv.Files.Get(id).Fields(...).Do()`;
`none` stands for a non-nil `err`. -/
abbrev Service := String → Option File

/-- How a call ends: it returns a value, the process is ended by `log.Fatalf`,
or the recursion is still running when the depth budget is used up. -/
inductive Outcome (α : Type) where
  | ok (a : α)
  | fatal
  | unfinished

/-- One iteration of the loop of `FindDuplicates` on the pair
`(duplicates, hashMap)`. -/
def FindDuplicatesStep (st : GoMap (List File) × GoMap File) (file : File) :
    GoMap (List File) × GoMap File :=
  match st.2 file.Md5Checksum with
  | some existing =>
    let d1 := st.1.set file.Md5Checksum (st.1.read file.Md5Checksum ++ [file])
    if (d1.read file.Md5Checksum).length = 1 then
      (d1.set file.Md5Checksum (d1.read file.Md5Checksum ++ [existing]), st.2)
    else
      (d1, st.2)
  | none => (st.1, st.2.set file.Md5Checksum file)

/-- `FindDuplicates` of `mian.go`: the map `duplicates` after the loop. -/
def FindDuplicates (files : List File) : GoMap (List File) :=
  (files.foldl FindDuplicatesStep (GoMap.empty, GoMap.empty)).1

/-- `getFullPath` of `mian.go`, with the lookup log threaded through.
`fuel` bounds the recursion depth. -/
def getFullPath (srv : Service) : Nat → String → List String → List String × Outcome String
  | 0, _, log => (log, Outcome.unfinished)
  | fuel + 1, folderID, log =>
    match srv folderID with
    | none => (log ++ [folderID], Outcome.fatal)
    | some folder =>
      match folder.Parents with
      | parent :: _ =>
        match getFullPath srv fuel parent (log ++ [folderID]) with
        | (log', Outcome.ok path) => (log', Outcome.ok (path ++ "/" ++ folder.Name))
        | (log', Outcome.fatal) => (log', Outcome.fatal)
        | (log', Outcome.unfinished) => (log', Outcome.unfinished)
      | [] => (log ++ [folderID], Outcome.ok folder.Name)

/-- The loop of `GetFilePaths` over the remaining files, from the current
`paths` map and lookup log. -/
def GetFilePathsLoop (srv : Service) (fuel : Nat) :
    List File → GoMap String → List String → List String × Outcome (GoMap String)
  | [], paths, log => (log, Outcome.ok paths)
  | file :: rest, paths, log =>
    match file.Parents with
    | parent :: _ =>
      match getFullPath srv fuel parent log with
      | (log', Outcome.ok path) => GetFilePathsLoop srv fuel rest (paths.set file.Id path) log'
      | (log', Outcome.fatal) => (log', Outcome.fatal)
      | (log', Outcome.unfinished) => (log', Outcome.unfinished)
    | [] => GetFilePathsLoop srv fuel rest (paths.set file.Id "root") log

/-- `GetFilePaths` of `mian.go`: the loop started on an empty map. -/
def GetFilePaths (srv : Service) (fuel : Nat) (files : List File) :
    List String × Outcome (GoMap String) :=
  GetFilePathsLoop srv fuel files GoMap.empty []

/-! ## Vocabulary of the properties -/

/-- The records of `files` whose content hash is `h`, in input order. -/
def withHash (h : String) (files : List File) : List File :=
  files.filter (fun f => decide (f.Md5Checksum = h))

/-- The group built from the records of one hash listed in input order:
none below two records, otherwise the second record, the first, then the rest. -/
def groupOf : List File → Option (List File)
  | a :: b :: rest => some (b :: a :: rest)
  | _ => none

/-- The input positions whose record has content hash `h`, in increasing order. -/
def positionsOf (h : String) (files : List File) : List Nat :=
  (List.range files.length).filter
    (fun i => decide ((files[i]?).map File.Md5Checksum = some h))

/-- A chain of folders: each id is found by the service, the first parent of
each folder is the next id of the chain, and the last folder has no parent. -/
def IsChain (srv : Service) : List (String × File) → Prop
  | [] => False
  | [c] => srv c.1 = some c.2 ∧ c.2.Parents = []
  | c :: c2 :: rest =>
    srv c.1 = some c.2 ∧ c.2.Parents.head? = some c2.1 ∧ IsChain srv (c2 :: rest)

instance IsChain.decidable (srv : Service) : (chain : List (String × File)) →
    Decidable (IsChain srv chain)
  | [] => isFalse (fun h => h)
  | [c] => inferInstanceAs (Decidable (srv c.1 = some c.2 ∧ c.2.Parents = []))
  | c :: c2 :: rest =>
    have := IsChain.decidable srv (c2 :: rest)
    inferInstanceAs (Decidable
      (srv c.1 = some c.2 ∧ c.2.Parents.head? = some c2.1 ∧ IsChain srv (c2 :: rest)))

/-- The path of a chain: the folder names from the last (root-most) folder to
the first (leaf-most) one, joined by `/`. -/
def chainPath (chain : List (String × File)) : String :=
  String.intercalate "/" ((chain.map (fun c => c.2.Name)).reverse)

/-- The id at which a walk over `chain` starts; `m` when the chain is empty. -/
def firstId (chain : List (String × File)) (m : String) : String :=
  match chain with
  | [] => m
  | c :: _ => c.1

/-- A broken chain: each id of `chain` is found by the service, the first
parent of each folder is the next id, the first parent of the last folder is
`m`, and the lookup of `m` fails. -/
def IsBrokenChain (srv : Service) : List (String × File) → String → Prop
  | [], m => srv m = none
  | c :: rest, m =>
    srv c.1 = some c.2 ∧ c.2.Parents.head? = some (firstId rest m) ∧ IsBrokenChain srv rest m

instance IsBrokenChain.decidable (srv : Service) : (chain : List (String × File)) →
    (m : String) → Decidable (IsBrokenChain srv chain m)
  | [], m => inferInstanceAs (Decidable (srv m = none))
  | c :: rest, m =>
    have := IsBrokenChain.decidable srv rest m
    inferInstanceAs (Decidable
      (srv c.1 = some c.2 ∧ c.2.Parents.head? = some (firstId rest m)
        ∧ IsBrokenChain srv rest m))

/-! ## Concrete inputs -/

/-- The three records of the scenario of the specification. -/
def file1 : File := ⟨"1", "a.txt", "h1", 10, ["F"]⟩

def file2 : File := ⟨"2", "b.txt", "h1", 10, ["F"]⟩

def file3 : File := ⟨"3", "c.txt", "h2", 7, []⟩

/-- Two records without a content hash (as the service reports folders). -/
def folderA : File := ⟨"A", "Photos", "", 0, []⟩

def folderB : File := ⟨"B", "Music", "", 0, []⟩

/-- The service of the scenario: folder `F` is named `Docs` and has no parent. -/
def docsSrv : Service := fun id => if id = "F" then some ⟨"F", "Docs", "", 0, []⟩ else none

/-- A three-level folder tree: `L` (Leaf) under `S` (Sub) under `T` (TopFolder). -/
def leafFolder : File := ⟨"L", "Leaf", "", 0, ["S"]⟩

def subFolder : File := ⟨"S", "Sub", "", 0, ["T"]⟩

def topFolder : File := ⟨"T", "TopFolder", "", 0, []⟩

def treeSrv : Service := fun id =>
  if id = "L" then some leafFolder
  else if id = "S" then some subFolder
  else if id = "T" then some topFolder
  else none

/-- The same tree with the top folder missing: the lookup of `T` fails. -/
def brokenSrv : Service := fun id =>
  if id = "L" then some leafFolder
  else if id = "S" then some subFolder
  else none

/-- Two files in the leaf folder, with different names and further parents. -/
def report : File := ⟨"r", "report.pdf", "h7", 100, ["L", "T"]⟩

def notes : File := ⟨"n", "notes.txt", "h8", 5, ["L"]⟩

/-- A file in the top folder of the tree. -/
def memo : File := ⟨"m", "memo.txt", "h6", 3, ["T"]⟩

/-- A malformed folder graph: the parent of `A` is `B` and the parent of `B` is `A`. -/
def cycleA : File := ⟨"A", "Alpha", "", 0, ["B"]⟩

def cycleB : File := ⟨"B", "Beta", "", 0, ["A"]⟩

def cycleSrv : Service := fun id =>
  if id = "A" then some cycleA else if id = "B" then some cycleB else none

/-- A file whose parent `X` is unknown to `docsSrv`. -/
def orphan : File := ⟨"9", "lost.txt", "h9", 1, ["X"]⟩

/-! ## Duplicate grouping: auxiliary facts -/

theorem withHash_append (h : String) (xs ys : List File) :
    withHash h (xs ++ ys) = withHash h xs ++ withHash h ys := by
  simp [withHash]

theorem withHash_single_same (file : File) :
    withHash file.Md5Checksum [file] = [file] := by
  simp [withHash]

theorem withHash_single_other (h : String) (file : File) (hne : h ≠ file.Md5Checksum) :
    withHash h [file] = [] := by
  simp [withHash, Ne.symm hne]

theorem mem_withHash (h : String) (files : List File) (f : File) :
    f ∈ withHash h files ↔ f ∈ files ∧ f.Md5Checksum = h := by
  simp [withHash]

/-- One loop iteration keeps the two maps in step with the records seen so far. -/
theorem FindDuplicatesStep_inv (seen : List File) (st : GoMap (List File) × GoMap File)
    (file : File)
    (hd : ∀ h, st.1 h = groupOf (withHash h seen))
    (hm : ∀ h, st.2 h = (withHash h seen).head?) :
    (∀ h, (FindDuplicatesStep st file).1 h = groupOf (withHash h (seen ++ [file]))) ∧
    (∀ h, (FindDuplicatesStep st file).2 h = (withHash h (seen ++ [file])).head?) := by
  have hd0 := hd file.Md5Checksum
  have hm0 := hm file.Md5Checksum
  have hother : ∀ h, h ≠ file.Md5Checksum →
      withHash h (seen ++ [file]) = withHash h seen := by
    intro h hne
    rw [withHash_append, withHash_single_other h file hne, List.append_nil]
  have hsame : withHash file.Md5Checksum (seen ++ [file])
      = withHash file.Md5Checksum seen ++ [file] := by
    rw [withHash_append, withHash_single_same]
  cases hL : withHash file.Md5Checksum seen with
  | nil =>
    rw [hL] at hd0 hm0
    simp only [List.head?_nil] at hm0
    have hstep : FindDuplicatesStep st file = (st.1, st.2.set file.Md5Checksum file) := by
      simp only [FindDuplicatesStep, hm0]
    rw [hstep]
    constructor
    · intro h
      by_cases hh : h = file.Md5Checksum
      · subst hh
        rw [hsame, hL, hd0]; rfl
      · rw [hother h hh]; exact hd h
    · intro h
      by_cases hh : h = file.Md5Checksum
      · subst hh
        rw [hsame, hL]; simp [GoMap.set]
      · rw [hother h hh]; simp [GoMap.set, hh, hm h]
  | cons a tl =>
    rw [hL] at hd0 hm0
    simp only [List.head?_cons] at hm0
    cases tl with
    | nil =>
      have hd1 : st.1 file.Md5Checksum = none := hd0
      have hstep : FindDuplicatesStep st file
          = ((st.1.set file.Md5Checksum [file]).set file.Md5Checksum [file, a], st.2) := by
        simp [FindDuplicatesStep, hm0, GoMap.read, GoMap.set, hd1]
      rw [hstep]
      constructor
      · intro h
        by_cases hh : h = file.Md5Checksum
        · subst hh
          rw [hsame, hL]; simp [GoMap.set, groupOf]
        · rw [hother h hh]; simp [GoMap.set, hh, hd h]
      · intro h
        by_cases hh : h = file.Md5Checksum
        · subst hh
          rw [hsame, hL]; simp [hm0]
        · rw [hother h hh]; exact hm h
    | cons b rest =>
      have hd1 : st.1 file.Md5Checksum = some (b :: a :: rest) := hd0
      have hstep : FindDuplicatesStep st file
          = (st.1.set file.Md5Checksum (b :: a :: rest ++ [file]), st.2) := by
        simp [FindDuplicatesStep, hm0, GoMap.read, GoMap.set, hd1]
      rw [hstep]
      constructor
      · intro h
        by_cases hh : h = file.Md5Checksum
        · subst hh
          rw [hsame, hL]; simp [GoMap.set, groupOf]
        · rw [hother h hh]; simp [GoMap.set, hh, hd h]
      · intro h
        by_cases hh : h = file.Md5Checksum
        · subst hh
          rw [hsame, hL]; simp [hm0]
        · rw [hother h hh]; exact hm h

/-- The loop of `FindDuplicates`, started in step with `seen`, ends in step
with `seen ++ files`. -/
theorem FindDuplicates_foldl_inv (files : List File) :
    ∀ (seen : List File) (st : GoMap (List File) × GoMap File),
      (∀ h, st.1 h = groupOf (withHash h seen)) →
      (∀ h, st.2 h = (withHash h seen).head?) →
      (∀ h, (files.foldl FindDuplicatesStep st).1 h = groupOf (withHash h (seen ++ files))) ∧
      (∀ h, (files.foldl FindDuplicatesStep st).2 h = (withHash h (seen ++ files)).head?) := by
  induction files with
  | nil =>
    intro seen st hd hm
    simpa using And.intro hd hm
  | cons file rest ih =>
    intro seen st hd hm
    have hstep := FindDuplicatesStep_inv seen st file hd hm
    have := ih (seen ++ [file]) (FindDuplicatesStep st file) hstep.1 hstep.2
    simpa [List.append_assoc] using this

/-- Closed form of `FindDuplicates`: the entry of every hash is the layout of
the input records carrying that hash. -/
theorem FindDuplicates_eq (files : List File) (h : String) :
    FindDuplicates files h = groupOf (withHash h files) := by
  have := (FindDuplicates_foldl_inv files [] (GoMap.empty, GoMap.empty)
    (fun _ => rfl) (fun _ => rfl)).1 h
  simpa [FindDuplicates] using this

theorem groupOf_eq_some (l g : List File) (hg : groupOf l = some g) :
    ∃ a b rest, l = a :: b :: rest ∧ g = b :: a :: rest := by
  match l, hg with
  | a :: b :: rest, hg =>
    refine ⟨a, b, rest, rfl, ?_⟩
    simpa [groupOf] using hg.symm

theorem groupOf_isSome (l : List File) : (groupOf l).isSome ↔ 2 ≤ l.length := by
  match l with
  | [] => simp [groupOf]
  | [a] => simp [groupOf]
  | a :: b :: rest => simp [groupOf]

theorem withHash_eq_positions (h : String) (files : List File) :
    withHash h files = (positionsOf h files).filterMap (fun i => files[i]?) := by
  induction files using List.reverseRecOn with
  | nil => simp [withHash, positionsOf]
  | append_singleton xs x ih =>
    have hpos : positionsOf h (xs ++ [x])
        = positionsOf h xs ++ (if x.Md5Checksum = h then [xs.length] else []) := by
      unfold positionsOf
      rw [List.length_append, List.length_singleton, List.range_succ, List.filter_append]
      congr 1
      · apply List.filter_congr
        intro i hi
        rw [List.mem_range] at hi
        rw [List.getElem?_append_left hi]
      · by_cases hx : x.Md5Checksum = h <;> simp [hx]
    have hmap : (positionsOf h xs).filterMap (fun i => (xs ++ [x])[i]?)
        = (positionsOf h xs).filterMap (fun i => xs[i]?) := by
      apply List.filterMap_congr
      intro i hi
      have : i < xs.length := by
        unfold positionsOf at hi
        exact List.mem_range.1 (List.mem_filter.1 hi).1
      rw [List.getElem?_append_left this]
    rw [hpos, List.filterMap_append, hmap, ← ih]
    unfold withHash
    rw [List.filter_append]
    congr 1
    by_cases hx : x.Md5Checksum = h <;> simp [hx]

theorem positions_unique (h : String) (files : List File) (idx : List Nat)
    (hsorted : idx.Sorted (· < ·))
    (hmem : ∀ i, i ∈ idx ↔ ∃ f, files[i]? = some f ∧ f.Md5Checksum = h) :
    idx = positionsOf h files := by
  have hs2 : (positionsOf h files).Sorted (· < ·) :=
    List.Sorted.filter _ (List.sorted_lt_range _)
  apply List.eq_of_perm_of_sorted _ hsorted hs2
  rw [List.perm_ext_iff_of_nodup hsorted.nodup hs2.nodup]
  intro i
  rw [hmem i]
  unfold positionsOf
  rw [List.mem_filter, List.mem_range]
  constructor
  · rintro ⟨f, hf, hh⟩
    refine ⟨?_, ?_⟩
    · exact (List.getElem?_eq_some_iff.1 hf).1
    · simp [hf, hh]
  · rintro ⟨_, hi⟩
    simpa using hi

theorem map_some_filterMap {α β : Type} (f : α → Option β) (l : List α)
    (hall : ∀ a ∈ l, (f a).isSome) : (l.filterMap f).map some = l.map f := by
  induction l with
  | nil => rfl
  | cons a tl ih =>
    have ha := hall a (List.mem_cons_self a tl)
    obtain ⟨b, hb⟩ := Option.isSome_iff_exists.1 ha
    have := ih (fun x hx => hall x (List.mem_cons_of_mem a hx))
    simp [List.filterMap_cons, hb, this]

/-! ## Path resolution: auxiliary facts -/

theorem intercalate_go_snoc (s : String) (l : List String) :
    ∀ (acc x : String), String.intercalate.go acc s (l ++ [x])
      = String.intercalate.go acc s l ++ s ++ x := by
  induction l with
  | nil => intro acc x; simp [String.intercalate.go]
  | cons a tl ih => intro acc x; simp [String.intercalate.go, ih]

theorem intercalate_snoc (s : String) (a : String) (l : List String) (x : String) :
    String.intercalate s ((a :: l) ++ [x]) = String.intercalate s (a :: l) ++ s ++ x := by
  simp only [String.intercalate, List.cons_append]
  exact intercalate_go_snoc s l a x

theorem chainPath_cons (c c2 : String × File) (rest : List (String × File)) :
    chainPath (c :: c2 :: rest) = chainPath (c2 :: rest) ++ "/" ++ c.2.Name := by
  unfold chainPath
  rw [List.map_cons, List.reverse_cons]
  have hne : ((c2 :: rest).map (fun c => c.2.Name)).reverse ≠ [] := by simp
  obtain ⟨a, l, hl⟩ := List.exists_cons_of_ne_nil hne
  rw [hl, intercalate_snoc]

theorem getFullPath_chain (srv : Service) :
    ∀ (chain : List (String × File)) (c : String × File), IsChain srv (c :: chain) →
      ∀ (fuel : Nat) (log : List String), chain.length + 1 ≤ fuel →
        getFullPath srv fuel c.1 log
          = (log ++ (c :: chain).map Prod.fst, Outcome.ok (chainPath (c :: chain))) := by
  intro chain
  induction chain with
  | nil =>
    intro c hc fuel log hfuel
    obtain ⟨n, rfl⟩ : ∃ n, fuel = n + 1 := ⟨fuel - 1, by omega⟩
    obtain ⟨h1, h2⟩ := hc
    simp [getFullPath, h1, h2, chainPath, String.intercalate, String.intercalate.go]
  | cons c2 rest ih =>
    intro c hc fuel log hfuel
    obtain ⟨n, rfl⟩ : ∃ n, fuel = n + 1 := ⟨fuel - 1, by simp at hfuel; omega⟩
    obtain ⟨h1, h2, h3⟩ := hc
    obtain ⟨tl, htl⟩ : ∃ tl, c.2.Parents = c2.1 :: tl := by
      cases hp : c.2.Parents with
      | nil => simp [hp] at h2
      | cons p tl => simp [hp] at h2; exact ⟨tl, by rw [h2]⟩
    have hrec := ih c2 h3 n (log ++ [c.1]) (by simp at hfuel; omega)
    simp only [getFullPath, h1, htl, hrec]
    rw [chainPath_cons]
    simp

theorem head?_eq_some_cons {l : List String} {p : String} (h : l.head? = some p) :
    ∃ tl, l = p :: tl := by
  cases l with
  | nil => simp at h
  | cons q tl => simp at h; exact ⟨tl, by rw [h]⟩

/-- The lookups and the outcome of `getFullPath` do not depend on the log it
starts from: it only appends to it. -/
theorem getFullPath_log (srv : Service) :
    ∀ (fuel : Nat) (id : String) (log : List String),
      getFullPath srv fuel id log
        = (log ++ (getFullPath srv fuel id []).1, (getFullPath srv fuel id []).2) := by
  intro fuel
  induction fuel with
  | zero => intro id log; simp [getFullPath]
  | succ n ih =>
    intro id log
    cases hs : srv id with
    | none => simp [getFullPath, hs]
    | some folder =>
      cases hp : folder.Parents with
      | nil => simp [getFullPath, hs, hp]
      | cons parent tl =>
        have h1 := ih parent (log ++ [id])
        have h2 := ih parent ([] ++ [id])
        simp only [getFullPath, hs, hp]
        rw [h1, h2]
        cases (getFullPath srv n parent []).2 <;> simp

theorem getFullPath_snd_log (srv : Service) (fuel : Nat) (id : String) (log : List String) :
    (getFullPath srv fuel id log).2 = (getFullPath srv fuel id []).2 := by
  rw [getFullPath_log]

theorem GetFilePathsLoop_root (srv : Service) (fuel : Nat) (f : File) (rest : List File)
    (paths : GoMap String) (log : List String) (hp : f.Parents = []) :
    GetFilePathsLoop srv fuel (f :: rest) paths log
      = GetFilePathsLoop srv fuel rest (paths.set f.Id "root") log := by
  simp [GetFilePathsLoop, hp]

theorem GetFilePathsLoop_ok (srv : Service) (fuel : Nat) (f : File) (rest : List File)
    (paths : GoMap String) (log : List String) (p s : String)
    (hp : f.Parents.head? = some p) (hs : (getFullPath srv fuel p []).2 = Outcome.ok s) :
    GetFilePathsLoop srv fuel (f :: rest) paths log
      = GetFilePathsLoop srv fuel rest (paths.set f.Id s)
          (log ++ (getFullPath srv fuel p []).1) := by
  obtain ⟨tl, htl⟩ := head?_eq_some_cons hp
  simp only [GetFilePathsLoop, htl]
  rw [getFullPath_log, hs]

theorem GetFilePathsLoop_fatal (srv : Service) (fuel : Nat) (f : File) (rest : List File)
    (paths : GoMap String) (log : List String) (p : String)
    (hp : f.Parents.head? = some p) (hs : (getFullPath srv fuel p []).2 = Outcome.fatal) :
    GetFilePathsLoop srv fuel (f :: rest) paths log
      = (log ++ (getFullPath srv fuel p []).1, Outcome.fatal) := by
  obtain ⟨tl, htl⟩ := head?_eq_some_cons hp
  simp only [GetFilePathsLoop, htl]
  rw [getFullPath_log, hs]

theorem GetFilePathsLoop_unfinished (srv : Service) (fuel : Nat) (f : File) (rest : List File)
    (paths : GoMap String) (log : List String) (p : String)
    (hp : f.Parents.head? = some p) (hs : (getFullPath srv fuel p []).2 = Outcome.unfinished) :
    GetFilePathsLoop srv fuel (f :: rest) paths log
      = (log ++ (getFullPath srv fuel p []).1, Outcome.unfinished) := by
  obtain ⟨tl, htl⟩ := head?_eq_some_cons hp
  simp only [GetFilePathsLoop, htl]
  rw [getFullPath_log, hs]

/-- What a returned map says: ids outside the list keep their entry, every
file with a parent had its first parent resolved, and (ids being unique)
every file is mapped to `root` or to the path of its first parent. -/
theorem GetFilePathsLoop_returned (srv : Service) (fuel : Nat) :
    ∀ (files : List File) (paths : GoMap String) (log log' : List String)
      (paths' : GoMap String),
      GetFilePathsLoop srv fuel files paths log = (log', Outcome.ok paths') →
      (∀ id, id ∉ files.map File.Id → paths' id = paths id) ∧
      (∀ f ∈ files, ∀ p, f.Parents.head? = some p →
        ∃ s, (getFullPath srv fuel p []).2 = Outcome.ok s) ∧
      ((files.map File.Id).Nodup → ∀ f ∈ files,
        (f.Parents = [] → paths' f.Id = some "root") ∧
        (∀ p s, f.Parents.head? = some p → (getFullPath srv fuel p []).2 = Outcome.ok s →
          paths' f.Id = some s)) := by
  intro files
  induction files with
  | nil =>
    intro paths log log' paths' h
    simp only [GetFilePathsLoop, Prod.mk.injEq, Outcome.ok.injEq] at h
    refine ⟨fun id _ => by rw [h.2], ?_, ?_⟩
    · intro f hf; simp at hf
    · intro _ f hf; simp at hf
  | cons file rest ih =>
    intro paths log log' paths' h
    cases hpar : file.Parents with
    | nil =>
      rw [GetFilePathsLoop_root srv fuel file rest paths log hpar] at h
      obtain ⟨ih1, ih2, ih3⟩ := ih _ _ _ _ h
      refine ⟨?_, ?_, ?_⟩
      · intro id hid
        simp only [List.map_cons, List.mem_cons, not_or] at hid
        rw [ih1 id hid.2]
        simp [GoMap.set, hid.1]
      · intro f hf p hp
        rcases List.mem_cons.1 hf with rfl | hf
        · simp [hpar] at hp
        · exact ih2 f hf p hp
      · intro hnd f hf
        simp only [List.map_cons, List.nodup_cons] at hnd
        rcases List.mem_cons.1 hf with rfl | hf
        · refine ⟨fun _ => ?_, fun p s hp _ => ?_⟩
          · rw [ih1 _ hnd.1]; simp [GoMap.set]
          · simp [hpar] at hp
        · exact ih3 hnd.2 f hf
    | cons parent tl =>
      have hhead : file.Parents.head? = some parent := by simp [hpar]
      cases hout : (getFullPath srv fuel parent []).2 with
      | fatal =>
        rw [GetFilePathsLoop_fatal srv fuel file rest paths log parent hhead hout] at h
        simp at h
      | unfinished =>
        rw [GetFilePathsLoop_unfinished srv fuel file rest paths log parent hhead hout] at h
        simp at h
      | ok s =>
        rw [GetFilePathsLoop_ok srv fuel file rest paths log parent s hhead hout] at h
        obtain ⟨ih1, ih2, ih3⟩ := ih _ _ _ _ h
        refine ⟨?_, ?_, ?_⟩
        · intro id hid
          simp only [List.map_cons, List.mem_cons, not_or] at hid
          rw [ih1 id hid.2]
          simp [GoMap.set, hid.1]
        · intro f hf p hp
          rcases List.mem_cons.1 hf with rfl | hf
          · rw [hhead] at hp
            cases hp
            exact ⟨s, hout⟩
          · exact ih2 f hf p hp
        · intro hnd f hf
          simp only [List.map_cons, List.nodup_cons] at hnd
          rcases List.mem_cons.1 hf with rfl | hf
          · refine ⟨fun h0 => ?_, fun p s2 hp hs2 => ?_⟩
            · simp [hpar] at h0
            · rw [hhead] at hp
              cases hp
              rw [hout] at hs2
              cases hs2
              rw [ih1 _ hnd.1]; simp [GoMap.set]
          · exact ih3 hnd.2 f hf

/-- The loop returns a map as soon as the first parent of every file resolves
within the depth budget. -/
theorem GetFilePathsLoop_returns (srv : Service) (fuel : Nat) :
    ∀ (files : List File) (paths : GoMap String) (log : List String),
      (∀ f ∈ files, ∀ p, f.Parents.head? = some p →
        ∃ s, (getFullPath srv fuel p []).2 = Outcome.ok s) →
      ∃ log' paths', GetFilePathsLoop srv fuel files paths log = (log', Outcome.ok paths') := by
  intro files
  induction files with
  | nil => intro paths log _; exact ⟨log, paths, rfl⟩
  | cons file rest ih =>
    intro paths log hall
    have hrest : ∀ f ∈ rest, ∀ p, f.Parents.head? = some p →
        ∃ s, (getFullPath srv fuel p []).2 = Outcome.ok s :=
      fun f hf => hall f (List.mem_cons_of_mem file hf)
    cases hpar : file.Parents with
    | nil =>
      rw [GetFilePathsLoop_root srv fuel file rest paths log hpar]
      exact ih _ _ hrest
    | cons parent tl =>
      have hhead : file.Parents.head? = some parent := by simp [hpar]
      obtain ⟨s, hs⟩ := hall file (List.mem_cons_self file rest) parent hhead
      rw [GetFilePathsLoop_ok srv fuel file rest paths log parent s hhead hs]
      exact ih _ _ hrest

/-- The lookup log of the loop is that of the loop over the files that have a
parent: a file without parent adds nothing to it. -/
theorem GetFilePathsLoop_log_filter (srv : Service) (fuel : Nat) :
    ∀ (files : List File) (paths paths2 : GoMap String) (log : List String),
      (GetFilePathsLoop srv fuel files paths log).1
        = (GetFilePathsLoop srv fuel
            (files.filter (fun f => decide (f.Parents ≠ []))) paths2 log).1 := by
  intro files
  induction files with
  | nil => intro paths paths2 log; rfl
  | cons file rest ih =>
    intro paths paths2 log
    cases hpar : file.Parents with
    | nil =>
      rw [GetFilePathsLoop_root srv fuel file rest paths log hpar]
      simp only [List.filter_cons, hpar, ne_eq, not_true_eq_false, decide_False]
      exact ih _ _ _
    | cons parent tl =>
      have hhead : file.Parents.head? = some parent := by simp [hpar]
      have hkeep : (file :: rest).filter (fun f => decide (f.Parents ≠ []))
          = file :: rest.filter (fun f => decide (f.Parents ≠ [])) := by
        simp [List.filter_cons, hpar]
      rw [hkeep]
      cases hout : (getFullPath srv fuel parent []).2 with
      | fatal =>
        rw [GetFilePathsLoop_fatal srv fuel file rest paths log parent hhead hout,
          GetFilePathsLoop_fatal srv fuel file _ paths2 log parent hhead hout]
      | unfinished =>
        rw [GetFilePathsLoop_unfinished srv fuel file rest paths log parent hhead hout,
          GetFilePathsLoop_unfinished srv fuel file _ paths2 log parent hhead hout]
      | ok s =>
        rw [GetFilePathsLoop_ok srv fuel file rest paths log parent s hhead hout,
          GetFilePathsLoop_ok srv fuel file _ paths2 log parent s hhead hout]
        exact ih _ _ _

theorem IsChain_suffix (srv : Service) (c : String × File) (post : List (String × File)) :
    ∀ (pre : List (String × File)), IsChain srv (pre ++ c :: post) → IsChain srv (c :: post) := by
  intro pre
  induction pre with
  | nil => intro h; exact h
  | cons a pre' ih =>
    intro h
    apply ih
    cases pre' with
    | nil => exact h.2.2
    | cons b pre'' => exact h.2.2

/-- The ids of a chain are pairwise different: the service is a function, so a
repeated id would make the walk endless. -/
theorem IsChain_ids_nodup (srv : Service) :
    ∀ (chain : List (String × File)), IsChain srv chain → (chain.map Prod.fst).Nodup := by
  intro chain
  induction chain with
  | nil => intro h; exact absurd h (fun h => h)
  | cons c rest ih =>
    intro h
    cases rest with
    | nil => simp
    | cons c2 rest2 =>
      have htail : IsChain srv (c2 :: rest2) := h.2.2
      rw [List.map_cons, List.nodup_cons]
      refine ⟨?_, ih htail⟩
      intro hmem
      obtain ⟨x, hx, hxc⟩ := List.mem_map.1 hmem
      obtain ⟨pre, post, hsplit⟩ := List.append_of_mem hx
      have hsuf : IsChain srv (x :: post) := by
        apply IsChain_suffix srv x post (c :: pre)
        rw [List.cons_append, ← hsplit]
        exact h
      have hlen : post.length + 1 ≤ (c2 :: rest2).length + 1 := by
        rw [hsplit]; simp; omega
      have e1 := getFullPath_chain srv (c2 :: rest2) c h ((c2 :: rest2).length + 1) []
        (Nat.le_refl _)
      have e2 := getFullPath_chain srv post x hsuf ((c2 :: rest2).length + 1) [] hlen
      rw [hxc, e1] at e2
      have e3 := congrArg (fun r => r.1.length) e2
      simp only [List.nil_append, List.length_map, List.length_cons] at e3
      have e4 := congrArg List.length hsplit
      simp only [List.length_cons, List.length_append] at e4
      omega

/-- Over files that all have the first parent `F`, the loop looks `F` up again
for every file. -/
theorem GetFilePathsLoop_shared (srv : Service) (fuel : Nat) (F s : String)
    (ids : List String) (hF : getFullPath srv fuel F [] = (ids, Outcome.ok s)) :
    ∀ (files : List File) (paths : GoMap String) (log : List String),
      (∀ f ∈ files, f.Parents.head? = some F) →
      ∃ log' paths', GetFilePathsLoop srv fuel files paths log = (log', Outcome.ok paths') ∧
        log'.count F = log.count F + files.length * ids.count F := by
  intro files
  induction files with
  | nil => intro paths log _; exact ⟨log, paths, rfl, by simp⟩
  | cons file rest ih =>
    intro paths log hall
    have hhead := hall file (List.mem_cons_self file rest)
    have hs : (getFullPath srv fuel F []).2 = Outcome.ok s := by rw [hF]
    rw [GetFilePathsLoop_ok srv fuel file rest paths log F s hhead hs, hF]
    obtain ⟨log', paths', hrun, hcount⟩ :=
      ih (paths.set file.Id s) (log ++ ids) (fun f hf => hall f (List.mem_cons_of_mem file hf))
    refine ⟨log', paths', hrun, ?_⟩
    rw [hcount, List.count_append, List.length_cons, Nat.succ_mul]
    omega

/-- On a two-folder cycle the walk uses up every depth budget, from either
folder, and performs one lookup per level of depth. -/
theorem getFullPath_cycle (srv : Service) (A B : String) (fa fb : File)
    (hA : srv A = some fa) (hAB : fa.Parents.head? = some B)
    (hB : srv B = some fb) (hBA : fb.Parents.head? = some A) :
    ∀ (fuel : Nat) (log : List String),
      ((getFullPath srv fuel A log).2 = Outcome.unfinished ∧
        (getFullPath srv fuel A log).1.length = log.length + fuel) ∧
      ((getFullPath srv fuel B log).2 = Outcome.unfinished ∧
        (getFullPath srv fuel B log).1.length = log.length + fuel) := by
  obtain ⟨ta, hta⟩ := head?_eq_some_cons hAB
  obtain ⟨tb, htb⟩ := head?_eq_some_cons hBA
  intro fuel
  induction fuel with
  | zero => intro log; simp [getFullPath]
  | succ n ih =>
    intro log
    have hb := (ih (log ++ [A])).2
    have ha := (ih (log ++ [B])).1
    constructor
    · simp only [getFullPath, hA, hta]
      cases hr : getFullPath srv n B (log ++ [A]) with
      | mk l o =>
        rw [hr] at hb
        simp only at hb
        rw [hb.1]
        refine ⟨rfl, ?_⟩
        simp only
        rw [hb.2]; simp; omega
    · simp only [getFullPath, hB, htb]
      cases hr : getFullPath srv n A (log ++ [B]) with
      | mk l o =>
        rw [hr] at ha
        simp only at ha
        rw [ha.1]
        refine ⟨rfl, ?_⟩
        simp only
        rw [ha.2]; simp; omega

theorem firstId_cons (c : String × File) (rest : List (String × File)) (m : String) :
    firstId (c :: rest) m = c.1 := rfl

/-- On a broken chain the walk ends in `log.Fatalf` at the missing folder when
the depth budget reaches it, and is unfinished otherwise. -/
theorem getFullPath_broken (srv : Service) (m : String) :
    ∀ (chain : List (String × File)), IsBrokenChain srv chain m →
      ∀ (fuel : Nat) (log : List String),
        (chain.length < fuel →
          getFullPath srv fuel (firstId chain m) log
            = (log ++ chain.map Prod.fst ++ [m], Outcome.fatal)) ∧
        (fuel ≤ chain.length →
          (getFullPath srv fuel (firstId chain m) log).2 = Outcome.unfinished) := by
  intro chain
  induction chain with
  | nil =>
    intro h fuel log
    have hm : srv m = none := h
    constructor
    · intro hfuel
      obtain ⟨n, rfl⟩ : ∃ n, fuel = n + 1 := ⟨fuel - 1, by simp at hfuel; omega⟩
      simp [getFullPath, firstId, hm]
    · intro hfuel
      have : fuel = 0 := by simpa using hfuel
      subst this
      simp [getFullPath]
  | cons c rest ih =>
    intro h fuel log
    obtain ⟨h1, h2, h3⟩ := h
    obtain ⟨tl, htl⟩ := head?_eq_some_cons h2
    cases fuel with
    | zero =>
      constructor
      · intro hfuel; simp at hfuel
      · intro _; simp [getFullPath]
    | succ n =>
      have hrec := ih h3 n (log ++ [c.1])
      constructor
      · intro hfuel
        have := hrec.1 (by simp at hfuel; omega)
        rw [firstId_cons]
        simp only [getFullPath, h1, htl, this]
        simp
      · intro hfuel
        have := hrec.2 (by simp at hfuel; omega)
        rw [firstId_cons]
        simp only [getFullPath, h1, htl]
        cases hr : getFullPath srv n (firstId rest m) (log ++ [c.1]) with
        | mk l o =>
          rw [hr] at this
          simp only at this
          rw [this]

/-- When the files before `f` resolve and the walk from the first parent of `f`
ends in `log.Fatalf`, so does the loop, whatever follows `f`. -/
theorem GetFilePathsLoop_aborts (srv : Service) (fuel : Nat) (f : File) (post : List File)
    (p : String) (hp : f.Parents.head? = some p)
    (hfatal : (getFullPath srv fuel p []).2 = Outcome.fatal) :
    ∀ (pre : List File) (paths : GoMap String) (log : List String),
      (∀ g ∈ pre, ∀ q, g.Parents.head? = some q →
        ∃ s, (getFullPath srv fuel q []).2 = Outcome.ok s) →
      GetFilePathsLoop srv fuel (pre ++ f :: post) paths log
        = ((GetFilePathsLoop srv fuel pre paths log).1 ++ (getFullPath srv fuel p []).1,
            Outcome.fatal) := by
  intro pre
  induction pre with
  | nil =>
    intro paths log _
    rw [List.nil_append, GetFilePathsLoop_fatal srv fuel f post paths log p hp hfatal]
    rfl
  | cons g rest ih =>
    intro paths log hall
    have hrest : ∀ g' ∈ rest, ∀ q, g'.Parents.head? = some q →
        ∃ s, (getFullPath srv fuel q []).2 = Outcome.ok s :=
      fun g' hg' => hall g' (List.mem_cons_of_mem g hg')
    rw [List.cons_append]
    cases hpar : g.Parents with
    | nil =>
      rw [GetFilePathsLoop_root srv fuel g _ paths log hpar,
        GetFilePathsLoop_root srv fuel g rest paths log hpar]
      exact ih _ _ hrest
    | cons q tl =>
      have hhead : g.Parents.head? = some q := by simp [hpar]
      obtain ⟨s, hs⟩ := hall g (List.mem_cons_self g rest) q hhead
      rw [GetFilePathsLoop_ok srv fuel g _ paths log q s hhead hs,
        GetFilePathsLoop_ok srv fuel g rest paths log q s hhead hs]
      exact ih _ _ hrest

/-! ## The claims -/

/-- C1: for a non-empty hash `h`, `h` is a key of `FindDuplicates files` exactly
when at least two input records carry `h`; the group under `h` is then a
permutation of the input records carrying `h` (every occurrence once, nothing
else); and a record of that group lies in no group under another key. -/
theorem C1_groups_are_hash_classes (files : List File) (h : String) (_hne : h ≠ "") :
    ((FindDuplicates files h).isSome ↔ 2 ≤ (withHash h files).length) ∧
    (∀ g, FindDuplicates files h = some g → g.Perm (withHash h files)) ∧
    (∀ k g g2 f, FindDuplicates files h = some g → FindDuplicates files k = some g2 →
      f ∈ g → f ∈ g2 → k = h) := by
  refine ⟨?_, ?_, ?_⟩
  · rw [FindDuplicates_eq, groupOf_isSome]
  · intro g hg
    rw [FindDuplicates_eq] at hg
    obtain ⟨a, b, rest, hl, rfl⟩ := groupOf_eq_some _ _ hg
    rw [hl]
    exact List.Perm.swap a b rest
  · intro k g g2 f hg hg2 hf hf2
    rw [FindDuplicates_eq] at hg hg2
    obtain ⟨a, b, rest, hl, rfl⟩ := groupOf_eq_some _ _ hg
    obtain ⟨a2, b2, rest2, hl2, rfl⟩ := groupOf_eq_some _ _ hg2
    have h1 : f ∈ withHash h files := by
      rw [hl]; exact (List.Perm.swap a b rest).subset hf
    have h2 : f ∈ withHash k files := by
      rw [hl2]; exact (List.Perm.swap a2 b2 rest2).subset hf2
    rw [mem_withHash] at h1 h2
    rw [← h1.2, ← h2.2]

theorem C1_groups_are_hash_classes_witness :
    "h1" ≠ "" ∧
    ((FindDuplicates [file1, file2, file3] "h1").isSome
      ↔ 2 ≤ (withHash "h1" [file1, file2, file3]).length) ∧
    (∀ g, FindDuplicates [file1, file2, file3] "h1" = some g →
      g.Perm (withHash "h1" [file1, file2, file3])) ∧
    (∀ k g g2 f, FindDuplicates [file1, file2, file3] "h1" = some g →
      FindDuplicates [file1, file2, file3] k = some g2 → f ∈ g → f ∈ g2 → k = "h1") :=
  ⟨by decide, C1_groups_are_hash_classes [file1, file2, file3] "h1" (by decide)⟩

/-- C2: every group in the map returned by `FindDuplicates` has at least two
members. -/
theorem C2_group_length_ge_two (files : List File) (h : String) (g : List File)
    (hg : FindDuplicates files h = some g) : 2 ≤ g.length := by
  rw [FindDuplicates_eq] at hg
  obtain ⟨a, b, rest, _, rfl⟩ := groupOf_eq_some _ _ hg
  simp

theorem C2_group_length_ge_two_witness :
    FindDuplicates [file1, file2, file3] "h1" = some [file2, file1] ∧
    2 ≤ [file2, file1].length :=
  ⟨by decide, C2_group_length_ge_two [file1, file2, file3] "h1" [file2, file1] (by decide)⟩

/-- C3, as stated, fails: two records with an empty content hash are grouped
under the key `""`. -/
theorem C3_empty_hash_is_grouped :
    folderA.Md5Checksum = "" ∧ folderB.Md5Checksum = "" ∧
    FindDuplicates [folderA, folderB] "" = some [folderB, folderA] := by
  decide

/-- C3, amended: the empty hash is treated like every other hash. The empty
string is a key exactly when two or more input records have an empty hash, its
group is then a permutation of exactly those records, and a record with an
empty hash never appears in a group under a non-empty key. -/
theorem C3_empty_hash_like_any_other (files : List File) :
    ((FindDuplicates files "").isSome ↔ 2 ≤ (withHash "" files).length) ∧
    (∀ g, FindDuplicates files "" = some g → g.Perm (withHash "" files)) ∧
    (∀ h g f, FindDuplicates files h = some g → f ∈ g → f.Md5Checksum = "" → h = "") := by
  refine ⟨?_, ?_, ?_⟩
  · rw [FindDuplicates_eq, groupOf_isSome]
  · intro g hg
    rw [FindDuplicates_eq] at hg
    obtain ⟨a, b, rest, hl, rfl⟩ := groupOf_eq_some _ _ hg
    rw [hl]
    exact List.Perm.swap a b rest
  · intro h g f hg hf hempty
    rw [FindDuplicates_eq] at hg
    obtain ⟨a, b, rest, hl, rfl⟩ := groupOf_eq_some _ _ hg
    have h1 : f ∈ withHash h files := by
      rw [hl]; exact (List.Perm.swap a b rest).subset hf
    rw [mem_withHash] at h1
    rw [← h1.2, hempty]

theorem C3_empty_hash_like_any_other_witness :
    (FindDuplicates [folderA, file1, folderB] "").isSome ∧
    2 ≤ (withHash "" [folderA, file1, folderB]).length ∧
    [folderB, folderA].Perm (withHash "" [folderA, file1, folderB]) :=
  have key := C3_empty_hash_like_any_other [folderA, file1, folderB]
  ⟨key.1.2 (by decide), by decide, key.2.1 [folderB, folderA] (by decide)⟩

/-- C4, as stated, fails: on the scenario input the group of `h1` starts with
the second-seen record, so it is not `[file1, file2]` and its first element is
not the first input record with hash `h1`. -/
theorem C4_first_seen_is_not_first :
    FindDuplicates [file1, file2, file3] "h1" = some [file2, file1] ∧
    FindDuplicates [file1, file2, file3] "h1" ≠ some [file1, file2] ∧
    (withHash "h1" [file1, file2, file3]).head? = some file1 ∧
    [file2, file1].head? ≠ some file1 := by
  decide

/-- C4, amended: the group under a key `h` is the input-order list of the
records with hash `h` with its first two entries exchanged (second-seen record
first, first-seen record second, the rest in input order). For three records
of which the first two share a hash and the third has another one, the result
is exactly the one-entry map from that hash to `[second, first]`. -/
theorem C4_group_order (files : List File) (h : String) (g : List File)
    (hg : FindDuplicates files h = some g) :
    (∃ a b rest, withHash h files = a :: b :: rest ∧ g = b :: a :: rest) ∧
    (∀ f1 f2 f3 : File, f2.Md5Checksum = f1.Md5Checksum → f3.Md5Checksum ≠ f1.Md5Checksum →
      FindDuplicates [f1, f2, f3] = GoMap.empty.set f1.Md5Checksum [f2, f1]) := by
  constructor
  · rw [FindDuplicates_eq] at hg
    exact groupOf_eq_some _ _ hg
  · intro f1 f2 f3 h12 h31
    funext k
    rw [FindDuplicates_eq]
    by_cases hk : k = f1.Md5Checksum
    · subst hk
      simp [withHash, h12, h31, groupOf, GoMap.set]
    · have hk1 : ¬ f1.Md5Checksum = k := fun e => hk e.symm
      by_cases hk3 : f3.Md5Checksum = k
      · simp [withHash, h12, hk1, hk3, hk, groupOf, GoMap.set, GoMap.empty]
      · simp [withHash, h12, hk1, hk3, hk, groupOf, GoMap.set, GoMap.empty]

theorem C4_group_order_witness :
    FindDuplicates [file1, file2, file3] "h1" = some [file2, file1] ∧
    (∃ a b rest, withHash "h1" [file1, file2, file3] = a :: b :: rest ∧
      [file2, file1] = b :: a :: rest) ∧
    FindDuplicates [file1, file2, file3] = GoMap.empty.set "h1" [file2, file1] :=
  have key := C4_group_order [file1, file2, file3] "h1" [file2, file1] (by decide)
  ⟨by decide, key.1, key.2 file1 file2 file3 (by decide) (by decide)⟩

/-- C10: exact layout of a group. If the hash `h` (the empty string included)
occurs exactly at the input positions `idx`, listed in increasing order, then
with `idx = i1 :: i2 :: rest` the entry of `h` is the group whose members are,
in this order, the records at positions `i2`, `i1` and then those of `rest`;
and with fewer than two positions `h` is not a key. -/
theorem C10_exact_layout (files : List File) (h : String) (idx : List Nat)
    (hsorted : idx.Sorted (· < ·))
    (hmem : ∀ i, i ∈ idx ↔ ∃ f, files[i]? = some f ∧ f.Md5Checksum = h) :
    (∀ i1 i2 rest, idx = i1 :: i2 :: rest →
      ∃ g, FindDuplicates files h = some g ∧
        g.map some = (i2 :: i1 :: rest).map (fun i => files[i]?)) ∧
    (idx.length < 2 → FindDuplicates files h = none) := by
  have hidx := positions_unique h files idx hsorted hmem
  have hall : ∀ i ∈ idx, (files[i]?).isSome := by
    intro i hi
    obtain ⟨f, hf, _⟩ := (hmem i).1 hi
    simp [hf]
  have hwith : (withHash h files).map some = idx.map (fun i => files[i]?) := by
    rw [withHash_eq_positions, ← hidx]
    exact map_some_filterMap _ idx hall
  constructor
  · intro i1 i2 rest hcons
    rw [hcons] at hwith
    rw [FindDuplicates_eq]
    match hw : withHash h files, hwith with
    | [], hwith => simp [hw] at hwith
    | [a], hwith => simp [hw] at hwith
    | a :: b :: tl, hwith =>
      refine ⟨b :: a :: tl, rfl, ?_⟩
      simp only [List.map_cons, List.cons.injEq] at hwith ⊢
      exact ⟨hwith.2.1, hwith.1, hwith.2.2⟩
  · intro hlen
    rw [FindDuplicates_eq]
    have hl : (withHash h files).length = idx.length := by
      have := congrArg List.length hwith
      simpa using this
    match hw : withHash h files, hl with
    | [], _ => rfl
    | [a], _ => rfl
    | a :: b :: tl, hl => simp at hl; omega

theorem C10_exact_layout_witness :
    List.Sorted (· < ·) [0, 2, 3] ∧
    (∀ i, i ∈ [0, 2, 3] ↔
      ∃ f, [file1, file3, file2, file1][i]? = some f ∧ f.Md5Checksum = "h1") ∧
    (∃ g, FindDuplicates [file1, file3, file2, file1] "h1" = some g ∧
      g.map some = [2, 0, 3].map (fun i => [file1, file3, file2, file1][i]?)) :=
  have hs : List.Sorted (· < ·) [0, 2, 3] := by decide
  have hm : ∀ i, i ∈ [0, 2, 3] ↔
      ∃ f, [file1, file3, file2, file1][i]? = some f ∧ f.Md5Checksum = "h1" := by
    intro i
    constructor
    · intro hi
      simp only [List.mem_cons, List.mem_singleton, List.not_mem_nil, or_false] at hi
      rcases hi with rfl | rfl | rfl <;> decide
    · rintro ⟨f, hf, hh⟩
      have hlt : i < 4 := (List.getElem?_eq_some_iff.1 hf).1
      interval_cases i
      · simp
      · simp only [List.getElem?_cons_succ, List.getElem?_cons_zero, Option.some.injEq] at hf
        rw [← hf] at hh
        exact absurd hh (by decide)
      · simp
      · simp
  ⟨hs, hm, (C10_exact_layout [file1, file3, file2, file1] "h1" [0, 2, 3] hs hm).1 0 2 [3] rfl⟩

/-- C5: for a chain of folders `c :: rest` (first parent of each is the next,
the last has no parent) and a depth budget covering the chain: (1) `getFullPath`
on the first id returns the folder names from root-most to leaf-most joined by
`/`; (2) whenever `GetFilePaths` returns a map for a list of files with unique
ids, every file whose first parent is that id is mapped to exactly this
string, whatever its name and later parents; (3) `GetFilePaths` does return a
map for every list of files in which the first parent of every file that has
one resolves (files of other folders included), and with unique ids that map
sends every file whose first parent is that id to exactly this string; (4) in
particular it returns a map for every list of files that are parentless or
have that first parent. -/
theorem C5_chain_path (srv : Service) (c : String × File) (rest : List (String × File))
    (hchain : IsChain srv (c :: rest)) (fuel : Nat) (hfuel : rest.length + 1 ≤ fuel) :
    (∀ log, (getFullPath srv fuel c.1 log).2 = Outcome.ok (chainPath (c :: rest))) ∧
    (∀ files log paths, (files.map File.Id).Nodup →
      GetFilePaths srv fuel files = (log, Outcome.ok paths) →
      ∀ f ∈ files, f.Parents.head? = some c.1 → paths f.Id = some (chainPath (c :: rest))) ∧
    (∀ files,
      (∀ f ∈ files, ∀ p, f.Parents.head? = some p →
        ∃ s, (getFullPath srv fuel p []).2 = Outcome.ok s) →
      ∃ log paths, GetFilePaths srv fuel files = (log, Outcome.ok paths) ∧
        ((files.map File.Id).Nodup →
          ∀ f ∈ files, f.Parents.head? = some c.1 →
            paths f.Id = some (chainPath (c :: rest)))) ∧
    (∀ files, (∀ f ∈ files, f.Parents = [] ∨ f.Parents.head? = some c.1) →
      ∃ log paths, GetFilePaths srv fuel files = (log, Outcome.ok paths)) := by
  have hpath : ∀ log, (getFullPath srv fuel c.1 log).2 = Outcome.ok (chainPath (c :: rest)) := by
    intro log
    rw [getFullPath_chain srv rest c hchain fuel log hfuel]
  have hmap : ∀ files log paths, (files.map File.Id).Nodup →
      GetFilePaths srv fuel files = (log, Outcome.ok paths) →
      ∀ f ∈ files, f.Parents.head? = some c.1 →
        paths f.Id = some (chainPath (c :: rest)) := by
    intro files log paths hnd hrun f hf hp
    have h3 := (GetFilePathsLoop_returned srv fuel files GoMap.empty [] log paths hrun).2.2
    exact (h3 hnd f hf).2 c.1 _ hp (hpath [])
  refine ⟨hpath, hmap, ?_, ?_⟩
  · intro files hall
    obtain ⟨log, paths, hrun⟩ := GetFilePathsLoop_returns srv fuel files GoMap.empty [] hall
    exact ⟨log, paths, hrun, fun hnd => hmap files log paths hnd hrun⟩
  · intro files hall
    apply GetFilePathsLoop_returns srv fuel files GoMap.empty []
    intro f hf p hp
    rcases hall f hf with h0 | h1
    · simp [h0] at hp
    · rw [h1] at hp
      cases hp
      exact ⟨_, hpath []⟩

theorem C5_chain_path_witness :
    IsChain treeSrv [("L", leafFolder), ("S", subFolder), ("T", topFolder)] ∧
    chainPath [("L", leafFolder), ("S", subFolder), ("T", topFolder)] = "TopFolder/Sub/Leaf" ∧
    (getFullPath treeSrv 3 "L" []).2
      = Outcome.ok (chainPath [("L", leafFolder), ("S", subFolder), ("T", topFolder)]) ∧
    (∃ log paths, GetFilePaths treeSrv 3 [report, memo, notes, file3] = (log, Outcome.ok paths) ∧
      paths "r" = some (chainPath [("L", leafFolder), ("S", subFolder), ("T", topFolder)]) ∧
      paths "n" = some (chainPath [("L", leafFolder), ("S", subFolder), ("T", topFolder)])) ∧
    (∃ log paths, GetFilePaths treeSrv 3 [report, notes, file3] = (log, Outcome.ok paths)) :=
  have key := C5_chain_path treeSrv ("L", leafFolder) [("S", subFolder), ("T", topFolder)]
    (by decide) 3 (by decide)
  have hres : ∀ f ∈ [report, memo, notes, file3], ∀ p, f.Parents.head? = some p →
      ∃ s, (getFullPath treeSrv 3 p []).2 = Outcome.ok s := by
    intro f hf p hp
    simp only [List.mem_cons, List.mem_singleton, List.not_mem_nil, or_false] at hf
    rcases hf with rfl | rfl | rfl | rfl
    · have hq : some "L" = some p := hp
      cases hq
      exact ⟨"TopFolder/Sub/Leaf", rfl⟩
    · have hq : some "T" = some p := hp
      cases hq
      exact ⟨"TopFolder", rfl⟩
    · have hq : some "L" = some p := hp
      cases hq
      exact ⟨"TopFolder/Sub/Leaf", rfl⟩
    · exact Option.noConfusion hp
  have hmixed := key.2.2.1 [report, memo, notes, file3] hres
  ⟨by decide, by decide, key.1 [],
    hmixed.elim fun log h => h.elim fun paths hp =>
      ⟨log, paths, hp.1,
        hp.2 (by decide) report (by decide) (by decide),
        hp.2 (by decide) notes (by decide) (by decide)⟩,
    key.2.2.2 [report, notes, file3] (by decide)⟩

/-- C6: for every service and file list with unique ids: (1) whenever
`GetFilePaths` returns a map, each file without parent is mapped to the literal
`root`; (2) it does return such a map when the first parent of every file that
has one resolves within the depth budget; (3) files without parent cause no
lookup: the lookup log of the run is that of the run over the files that have
a parent; (4) on a list of parentless files the run returns a map and the log
is empty. -/
theorem C6_parentless_is_root (srv : Service) (fuel : Nat) (files : List File)
    (hids : (files.map File.Id).Nodup) :
    (∀ log paths, GetFilePaths srv fuel files = (log, Outcome.ok paths) →
      ∀ f ∈ files, f.Parents = [] → paths f.Id = some "root") ∧
    ((∀ f ∈ files, ∀ p, f.Parents.head? = some p →
        ∃ s, (getFullPath srv fuel p []).2 = Outcome.ok s) →
      ∃ log paths, GetFilePaths srv fuel files = (log, Outcome.ok paths) ∧
        ∀ f ∈ files, f.Parents = [] → paths f.Id = some "root") ∧
    ((GetFilePaths srv fuel files).1
      = (GetFilePaths srv fuel (files.filter (fun f => decide (f.Parents ≠ [])))).1) ∧
    ((∀ f ∈ files, f.Parents = []) →
      ∃ paths, GetFilePaths srv fuel files = ([], Outcome.ok paths)) := by
  have hroot : ∀ log paths, GetFilePaths srv fuel files = (log, Outcome.ok paths) →
      ∀ f ∈ files, f.Parents = [] → paths f.Id = some "root" := by
    intro log paths hrun f hf hp
    have h3 := (GetFilePathsLoop_returned srv fuel files GoMap.empty [] log paths hrun).2.2
    exact (h3 hids f hf).1 hp
  refine ⟨hroot, ?_, ?_, ?_⟩
  · intro hall
    obtain ⟨log, paths, hrun⟩ := GetFilePathsLoop_returns srv fuel files GoMap.empty [] hall
    exact ⟨log, paths, hrun, hroot log paths hrun⟩
  · exact GetFilePathsLoop_log_filter srv fuel files GoMap.empty GoMap.empty []
  · intro hall
    obtain ⟨log, paths, hrun⟩ := GetFilePathsLoop_returns srv fuel files GoMap.empty []
      (fun f hf p hp => by simp [hall f hf] at hp)
    have hlog := GetFilePathsLoop_log_filter srv fuel files GoMap.empty GoMap.empty []
    have hnone : files.filter (fun f => decide (f.Parents ≠ [])) = [] := by
      rw [List.filter_eq_nil_iff]
      intro f hf
      simp [hall f hf]
    rw [hnone, hrun] at hlog
    refine ⟨paths, ?_⟩
    show GetFilePathsLoop srv fuel files GoMap.empty [] = ([], Outcome.ok paths)
    rw [hrun]
    have : log = [] := hlog
    rw [this]

theorem C6_parentless_is_root_witness :
    ([file1, file2, file3].map File.Id).Nodup ∧
    (∃ paths, GetFilePaths docsSrv 1 [file1, file2, file3] = (["F", "F"], Outcome.ok paths) ∧
      paths "3" = some "root") ∧
    (GetFilePaths docsSrv 1 [file1, file2, file3]).1 = (GetFilePaths docsSrv 1 [file1, file2]).1 ∧
    (∃ paths, GetFilePaths docsSrv 0 [file3, folderA] = ([], Outcome.ok paths)) :=
  have key := C6_parentless_is_root docsSrv 1 [file1, file2, file3] (by decide)
  ⟨by decide, ⟨_, rfl, key.1 ["F", "F"] _ rfl file3 (by decide) rfl⟩, key.2.2.1,
    (C6_parentless_is_root docsSrv 0 [file3, folderA] (by decide)).2.2.2 (by decide)⟩

/-- C7, as stated, fails: over the two files of the scenario, which share the
parent folder `F`, the run returns and has looked `F` up twice. -/
theorem C7_shared_folder_looked_up_twice :
    (∃ paths, GetFilePaths docsSrv 1 [file1, file2] = (["F", "F"], Outcome.ok paths)) ∧
    file1.Parents.head? = some "F" ∧ file2.Parents.head? = some "F" ∧
    List.count "F" ["F", "F"] = 2 :=
  ⟨⟨_, rfl⟩, by decide, by decide, by decide⟩

/-- C7, amended: nothing is cached. Over `N ≥ 1` files that share the first
parent `F`, where `F` heads a chain of folders and the depth budget covers the
chain, `GetFilePaths` returns and has looked `F` up exactly once per file, `N`
times in total. -/
theorem C7_one_lookup_per_file (srv : Service) (c : String × File)
    (rest : List (String × File)) (hchain : IsChain srv (c :: rest))
    (fuel : Nat) (hfuel : rest.length + 1 ≤ fuel)
    (files : List File) (hne : files ≠ [])
    (hshare : ∀ f ∈ files, f.Parents.head? = some c.1) :
    0 < files.length ∧
    ∃ log paths, GetFilePaths srv fuel files = (log, Outcome.ok paths) ∧
      log.count c.1 = files.length := by
  refine ⟨List.length_pos.2 hne, ?_⟩
  have hF := getFullPath_chain srv rest c hchain fuel [] hfuel
  rw [List.nil_append] at hF
  obtain ⟨log, paths, hrun, hcount⟩ :=
    GetFilePathsLoop_shared srv fuel c.1 _ _ hF files GoMap.empty [] hshare
  refine ⟨log, paths, hrun, ?_⟩
  have hnd := IsChain_ids_nodup srv (c :: rest) hchain
  have hone : ((c :: rest).map Prod.fst).count c.1 = 1 :=
    List.count_eq_one_of_mem hnd (by simp)
  rw [hcount, hone]
  simp

theorem C7_one_lookup_per_file_witness :
    IsChain treeSrv [("L", leafFolder), ("S", subFolder), ("T", topFolder)] ∧
    (∀ f ∈ [report, notes], f.Parents.head? = some "L") ∧
    (0 < [report, notes].length ∧
      ∃ log paths, GetFilePaths treeSrv 3 [report, notes] = (log, Outcome.ok paths) ∧
        log.count "L" = [report, notes].length) :=
  ⟨by decide, by decide,
    C7_one_lookup_per_file treeSrv ("L", leafFolder) [("S", subFolder), ("T", topFolder)]
      (by decide) 3 (by decide) [report, notes] (by decide) (by decide)⟩

/-- C8, as stated, fails: on the graph where the parent of `A` is `B` and the
parent of `B` is `A`, `getFullPath` on `A` and on `B` is still recursing at
every depth; it never returns, and no cycle error exists. -/
theorem C8_cycle_recurses_without_bound :
    (∀ fuel, (getFullPath cycleSrv fuel "A" []).2 = Outcome.unfinished) ∧
    (∀ fuel, (getFullPath cycleSrv fuel "B" []).2 = Outcome.unfinished) :=
  ⟨fun fuel => ((getFullPath_cycle cycleSrv "A" "B" cycleA cycleB rfl rfl rfl rfl fuel []).1).1,
    fun fuel => ((getFullPath_cycle cycleSrv "A" "B" cycleA cycleB rfl rfl rfl rfl fuel []).2).1⟩

/-- C8, amended: when the parent of folder `A` is `B` and the parent of `B` is
`A`, `getFullPath` on `A` or on `B` does not terminate: at every depth budget
the walk is unfinished and has performed as many lookups as the budget allows;
and `GetFilePaths` returns no map for any file list that holds a file whose
first parent is `A` or `B`. -/
theorem C8_cycle_never_returns (srv : Service) (A B : String) (fa fb : File)
    (hA : srv A = some fa) (hAB : fa.Parents.head? = some B)
    (hB : srv B = some fb) (hBA : fb.Parents.head? = some A) (fuel : Nat) :
    ((getFullPath srv fuel A []).2 = Outcome.unfinished ∧
      (getFullPath srv fuel A []).1.length = fuel) ∧
    ((getFullPath srv fuel B []).2 = Outcome.unfinished ∧
      (getFullPath srv fuel B []).1.length = fuel) ∧
    (∀ files f, f ∈ files → (f.Parents.head? = some A ∨ f.Parents.head? = some B) →
      ∀ log paths, GetFilePaths srv fuel files ≠ (log, Outcome.ok paths)) := by
  have key := getFullPath_cycle srv A B fa fb hA hAB hB hBA fuel []
  refine ⟨by simpa using key.1, by simpa using key.2, ?_⟩
  intro files f hf hpar log paths hrun
  have h2 := (GetFilePathsLoop_returned srv fuel files GoMap.empty [] log paths hrun).2.1
  rcases hpar with hp | hp
  · obtain ⟨s, hs⟩ := h2 f hf A hp
    rw [key.1.1] at hs
    cases hs
  · obtain ⟨s, hs⟩ := h2 f hf B hp
    rw [key.2.1] at hs
    cases hs

theorem C8_cycle_never_returns_witness :
    cycleSrv "A" = some cycleA ∧ cycleA.Parents.head? = some "B" ∧
    cycleSrv "B" = some cycleB ∧ cycleB.Parents.head? = some "A" ∧
    (getFullPath cycleSrv 50 "A" []).2 = Outcome.unfinished ∧
    (getFullPath cycleSrv 50 "B" []).1.length = 50 :=
  have key := C8_cycle_never_returns cycleSrv "A" "B" cycleA cycleB rfl rfl rfl rfl 50
  ⟨rfl, rfl, rfl, rfl, key.1.1, key.2.1.2⟩

/-- C9, as stated, fails: with `file1` resolvable, `orphan` under the unknown
folder `X` and `file3` parentless, the run ends in `log.Fatalf` at the lookup
of `X`; it returns no map at all, at any depth budget. -/
theorem C9_lookup_failure_ends_the_run :
    GetFilePaths docsSrv 1 [file1, orphan, file3] = (["F", "X"], Outcome.fatal) ∧
    (getFullPath docsSrv 1 "F" []).2 = Outcome.ok "Docs" ∧
    (∀ fuel log paths, GetFilePaths docsSrv fuel [file1, orphan, file3]
      ≠ (log, Outcome.ok paths)) := by
  refine ⟨rfl, rfl, ?_⟩
  intro fuel log paths hrun
  have h2 := (GetFilePathsLoop_returned docsSrv fuel _ GoMap.empty [] log paths hrun).2.1
  obtain ⟨s, hs⟩ := h2 orphan (by decide) "X" rfl
  have hb := getFullPath_broken docsSrv "X" [] rfl fuel []
  rcases Nat.lt_or_ge 0 fuel with hlt | hge
  · have := hb.1 hlt
    rw [firstId] at this
    rw [this] at hs
    cases hs
  · have := hb.2 hge
    rw [firstId] at this
    rw [this] at hs
    cases hs

/-- C9, amended: a lookup failure ends the whole run. If the walk from the
first parent of a file `f` passes the found folders of `chain` and then fails at
the missing folder `m`, within the depth budget, then `GetFilePaths` returns no
map for any file list that holds `f`; and when the files before `f` resolve,
the run ends in `log.Fatalf` right after the lookup of `m`, whatever files
follow `f`. -/
theorem C9_failure_aborts_batch (srv : Service) (fuel : Nat)
    (chain : List (String × File)) (m : String)
    (hbroken : IsBrokenChain srv chain m) (hfuel : chain.length < fuel)
    (f : File) (hf : f.Parents.head? = some (firstId chain m)) :
    (∀ files, f ∈ files → ∀ log paths, GetFilePaths srv fuel files ≠ (log, Outcome.ok paths)) ∧
    (∀ pre post,
      (∀ g ∈ pre, ∀ q, g.Parents.head? = some q →
        ∃ s, (getFullPath srv fuel q []).2 = Outcome.ok s) →
      GetFilePaths srv fuel (pre ++ f :: post)
        = ((GetFilePaths srv fuel pre).1 ++ chain.map Prod.fst ++ [m], Outcome.fatal)) := by
  have hwalk := (getFullPath_broken srv m chain hbroken fuel []).1 hfuel
  rw [List.nil_append] at hwalk
  have hfatal : (getFullPath srv fuel (firstId chain m) []).2 = Outcome.fatal := by rw [hwalk]
  constructor
  · intro files hmem log paths hrun
    have h2 := (GetFilePathsLoop_returned srv fuel files GoMap.empty [] log paths hrun).2.1
    obtain ⟨s, hs⟩ := h2 f hmem _ hf
    rw [hfatal] at hs
    cases hs
  · intro pre post hpre
    have := GetFilePathsLoop_aborts srv fuel f post _ hf hfatal pre GoMap.empty [] hpre
    rw [hwalk] at this
    simpa [GetFilePaths, List.append_assoc] using this

theorem C9_failure_aborts_batch_witness :
    IsBrokenChain brokenSrv [("L", leafFolder), ("S", subFolder)] "T" ∧
    report.Parents.head? = some (firstId [("L", leafFolder), ("S", subFolder)] "T") ∧
    GetFilePaths brokenSrv 3 ([file3] ++ report :: [notes])
      = ((GetFilePaths brokenSrv 3 [file3]).1
          ++ [("L", leafFolder), ("S", subFolder)].map Prod.fst ++ ["T"], Outcome.fatal) ∧
    (∀ log paths, GetFilePaths brokenSrv 3 [file3, report, notes] ≠ (log, Outcome.ok paths)) :=
  have key := C9_failure_aborts_batch brokenSrv 3 [("L", leafFolder), ("S", subFolder)] "T"
    (by decide) (by decide) report (by decide)
  ⟨by decide, by decide,
    key.2 [file3] [notes] (fun g hg q hq => by
      have hg1 : g = file3 := by simpa using hg
      subst hg1
      exact Option.noConfusion hq),
    key.1 [file3, report, notes] (by decide)⟩

end GDrive
